import Mathlib

/-!
Verification of the worm-algorithm PIMC move engine (src/move.cpp,
src/cmc.cpp, src/include/common.h) against its natural-language
specification.

The shallow embedding below translates the data model and the control flow
of the move families directly from the C++ source:

* a bead locator is a `(slice, offset)` pair of machine ints
  (`beadLocator`, common.h line 118), with the nil sentinel `XXX = -1`
  broadcast to both components (common.h line 99);
* the Path's mutable stores (bead positions, next/prev links) are modelled
  as total functions from bead locators, updated with `Function.update`;
* the random source `MTRand` is an external collaborator, so each random
  draw is an explicit oracle argument (a number, list or function supplied
  to the embedded move), and `randNorm mu sigma` is modelled as
  `mu + sigma * xi` with `xi` the supplied standard normal deviate;
* the potential/action evaluator is external, so action values reaching a
  Metropolis test are oracle arguments as well, and each Metropolis
  comparison outcome is an oracle Boolean where only the branch structure
  matters;
* C++ `double` arithmetic is modelled by real arithmetic.
-/

namespace Pimc

/-- time-slice, bead-number world line index (common.h line 118). -/
abbrev beadLocator := Int × Int

/-- Used to refer to a nonsense beadIndex (common.h line 99); blitz
broadcasts the scalar -1 to both components. -/
def XXX : beadLocator := (-1, -1)

/-! ## Sequential store updates

The moves mutate the Path's bead stores one bead at a time while walking a
linked chain.  `writeSeq` performs a list of single-bead writes in order;
the lemmas show that writing recorded original values back over a
duplicate-free set of beads restores the store exactly. -/

section Store

variable {α β : Type} [DecidableEq α]

/-- Apply a list of single-key writes to a store, in order. -/
def writeSeq (f : α → β) : List (α × β) → (α → β)
  | [] => f
  | kv :: rest => writeSeq (Function.update f kv.1 kv.2) rest

theorem writeSeq_notMem (f : α → β) (l : List (α × β)) (a : α)
    (h : a ∉ l.map Prod.fst) : writeSeq f l a = f a := by
  induction l generalizing f with
  | nil => rfl
  | cons kv rest ih =>
      simp only [List.map_cons, List.mem_cons] at h
      push_neg at h
      rw [writeSeq, ih _ h.2, Function.update_noteq h.1]

theorem writeSeq_update_comm (f : α → β) (l : List (α × β)) (k : α) (v : β)
    (h : k ∉ l.map Prod.fst) :
    writeSeq (Function.update f k v) l = Function.update (writeSeq f l) k v := by
  induction l generalizing f with
  | nil => rfl
  | cons kv rest ih =>
      simp only [List.map_cons, List.mem_cons] at h
      push_neg at h
      rw [writeSeq, Function.update_comm h.1, ih _ h.2, writeSeq]

/-- Writing, at every key of a duplicate-free list, the value a reference
store `f` gives, restores `f` from any store `g` that already agrees with
`f` off the written keys. -/
theorem writeSeq_restore (f : α → β) (ks : List α) :
    ∀ g : α → β, ks.Nodup → (∀ a, a ∉ ks → g a = f a) →
      writeSeq g (ks.map (fun k => (k, f k))) = f := by
  induction ks with
  | nil => intro g _ hoff; funext a; exact hoff a (by simp)
  | cons k rest ih =>
      intro g hnd hoff
      simp only [List.nodup_cons] at hnd
      rw [List.map_cons, writeSeq]
      refine ih _ hnd.2 (fun a ha => ?_)
      by_cases hak : a = k
      · subst hak; rw [Function.update_same]
      · rw [Function.update_noteq hak]
        exact hoff a (by simp [hak, ha])

end Store

/-- A key appearing among the first components of a zip appears in the
first list. -/
theorem mem_of_mem_map_fst_zip {α γ : Type} {l1 : List α} {l2 : List γ}
    {a : α} (h : a ∈ (l1.zip l2).map Prod.fst) : a ∈ l1 := by
  rw [List.mem_map] at h
  obtain ⟨⟨x, y⟩, hmem, hfst⟩ := h
  exact hfst ▸ (List.of_mem_zip hmem).1

/-! ## Linked-chain traversal

Each move walks the `next` (or `prev`) links of the Path.  `chainFrom nxt b
m` is the list of the `m` beads reached from `b` by one, two, …, `m`
applications of the link function, in traversal order. -/

/-- The beads visited after `b` when following a link function `m` times. -/
def chainFrom (nxt : beadLocator → beadLocator) (b : beadLocator) (m : ℕ) :
    List beadLocator :=
  (List.range m).map (fun k => nxt^[k + 1] b)

theorem chainFrom_zero (nxt : beadLocator → beadLocator) (b : beadLocator) :
    chainFrom nxt b 0 = [] := rfl

theorem mem_chainFrom {nxt : beadLocator → beadLocator} {b : beadLocator}
    {m : ℕ} {c : beadLocator} :
    c ∈ chainFrom nxt b m ↔ ∃ k < m, nxt^[k + 1] b = c := by
  simp [chainFrom, eq_comm]

/-- Two link functions that agree on a chain's beads (and at its start)
produce the same chain. -/
theorem chainFrom_congr (nxt nxt' : beadLocator → beadLocator)
    (b : beadLocator) (m : ℕ)
    (hstart : nxt' b = nxt b)
    (hmid : ∀ c ∈ chainFrom nxt b m, nxt' c = nxt c) :
    chainFrom nxt' b m = chainFrom nxt b m := by
  have key : ∀ k ≤ m, nxt'^[k] b = nxt^[k] b := by
    intro k hk
    induction k with
    | zero => rfl
    | succ n ihn =>
        have hn : n ≤ m := Nat.le_of_succ_le hk
        rw [Function.iterate_succ_apply', Function.iterate_succ_apply', ihn hn]
        rcases Nat.eq_zero_or_pos n with h0 | hpos
        · subst h0; simpa using hstart
        · refine hmid _ ?_
          rw [mem_chainFrom]
          exact ⟨n - 1, by omega, by rw [Nat.sub_add_cancel hpos]⟩
  unfold chainFrom
  refine List.map_congr_left (fun k hk => ?_)
  rw [List.mem_range] at hk
  exact key (k + 1) (by omega)

/-! ## Staging move (move.cpp lines 433-519)

`StagingMove::attemptMove` walks the `Mbar - 1` interior beads of the stage
(`next(startBead)` through `prev(endBead)`, with
`endBead = next^Mbar(startBead)`), recording each bead's position in
`originalPos(k)` and then overwriting it with a staging-kernel draw
(lines 476-485).  On rejection `StagingMove::undoMove` (lines 507-519)
walks the same chain writing `originalPos(k)` back.  The staging-kernel
draws are state-dependent random values; for the restoration property they
are abstracted into the oracle list `vals`. -/

section Staging

variable {β : Type}

/-- The interior beads of the stage, in the order both loops visit them:
`next(startBead), next^2(startBead), …, next^(Mbar-1)(startBead)`. -/
def stagingChain (nxt : beadLocator → beadLocator) (startBead : beadLocator)
    (Mbar : ℕ) : List beadLocator :=
  chainFrom nxt startBead (Mbar - 1)

/-- The proposal loop of `StagingMove::attemptMove` (lines 476-485): for
each chain bead in order, record its current position, then overwrite it
with the next oracle value.  Returns the updated store and the recorded
`originalPos` list. -/
def stagingProposal (pos : beadLocator → β) :
    List beadLocator → List β → (beadLocator → β) × List β
  | [], _ => (pos, [])
  | _ :: _, [] => (pos, [])
  | b :: ch, v :: vs =>
      let rest := stagingProposal (Function.update pos b v) ch vs
      (rest.1, pos b :: rest.2)

/-- `StagingMove::undoMove` (lines 507-519): walk the chain again, writing
the recorded original positions back in the same order. -/
def stagingUndo (pos : beadLocator → β) (ch : List beadLocator)
    (os : List β) : beadLocator → β :=
  writeSeq pos (ch.zip os)

/-- Round trip of the staging store edits: proposing along a
duplicate-free chain and then undoing restores every position. -/
theorem stagingProposal_undo (ch : List beadLocator) :
    ∀ (pos : beadLocator → β) (vals : List β), ch.Nodup →
      stagingUndo (stagingProposal pos ch vals).1 ch
        (stagingProposal pos ch vals).2 = pos := by
  induction ch with
  | nil => intro pos vals _; cases vals <;> rfl
  | cons b ch ih =>
      intro pos vals hnd
      cases vals with
      | nil => rfl
      | cons v vs =>
          simp only [List.nodup_cons] at hnd
          show writeSeq (stagingProposal (Function.update pos b v) ch vs).1
            ((b :: ch).zip (pos b ::
              (stagingProposal (Function.update pos b v) ch vs).2)) = pos
          rw [List.zip_cons_cons, writeSeq, writeSeq_update_comm _ _ _ _
            (fun hb => hnd.1 (mem_of_mem_map_fst_zip hb))]
          have hrec := ih (Function.update pos b v) vs hnd.2
          rw [stagingUndo] at hrec
          rw [hrec, Function.update_idem, Function.update_eq_self]

end Staging

/-! ## Bisection move (move.cpp lines 577-724)

`BisectionMove::attemptMove` spans `2^b` slices with `numActiveBeads =
2^b - 1` interior beads; interior index `n` stands for the bead
`next^(n+1)(startBead)` (the numbering of the undo loop, lines 711-720,
and of `include`/`originalPos`/`newPos`).  The level loop (lines 616-679)
visits, at level `l` with `shift = 2^(l-1)`, the indices `k*shift - 1`
until the traversal reaches `endBead = next^(2^b)(startBead)`; a bead
whose `include` bit is set is recorded into `originalPos` and overwritten
with a bisection-kernel draw (abstracted into the oracle `prop`) and its
bit cleared; at level 1 a bead already moved at a higher level is written
to `originalPos(n)` and then back to `newPos(n)` for the action
evaluation, a net write of its stored `newPos(n)`.  Any rejected level
calls `undoMove` (lines 707-724), which walks all interior indices
restoring `originalPos(k)` for every bead whose `include` bit is clear. -/

section Bisection

variable {β : Type}

/-- The per-attempt mutable data of `BisectionMove` together with the bead
position store it edits. -/
structure BisectionState (β : Type) where
  pos : beadLocator → β
  includeBit : ℕ → Bool
  originalPos : ℕ → β
  newPos : ℕ → β

/-- The interior indices the level loop visits at `level` (lines 626-653):
`k * 2^(level-1) - 1` for `k = 1, …, 2^b / 2^(level-1) - 1`. -/
def bisectionIndices (b level : ℕ) : List ℕ :=
  (List.range (2 ^ b / 2 ^ (level - 1) - 1)).map
    (fun j => (j + 1) * 2 ^ (level - 1) - 1)

/-- One iteration of the level loop body (lines 628-653). -/
def bisectionVisit (bead : ℕ → beadLocator) (prop : ℕ → β) (level : ℕ)
    (st : BisectionState β) (n : ℕ) : BisectionState β :=
  if st.includeBit n then
    { pos := Function.update st.pos (bead n) (prop n)
      includeBit := Function.update st.includeBit n false
      originalPos := Function.update st.originalPos n (st.pos (bead n))
      newPos := Function.update st.newPos n (prop n) }
  else if level = 1 then
    { st with pos := Function.update st.pos (bead n) (st.newPos n) }
  else st

/-- One full pass of the level loop at a given level. -/
def bisectionLevelPass (bead : ℕ → beadLocator) (prop : ℕ → β)
    (b level : ℕ) (st : BisectionState β) : BisectionState β :=
  (bisectionIndices b level).foldl (bisectionVisit bead prop level) st

/-- The level loop of `BisectionMove::attemptMove` (lines 616-679), run
from `level = numLevels` down: `accepts` gives each level's Metropolis
outcome and `prop level` the bisection-kernel draws of that level.
Returns the state at the loop's exit and whether every level accepted
(`false` means `undoMove` is about to run). -/
def bisectionRun (bead : ℕ → beadLocator) (prop : ℕ → ℕ → β)
    (accepts : ℕ → Bool) (b : ℕ) :
    ℕ → BisectionState β → BisectionState β × Bool
  | 0, st => (st, true)
  | l + 1, st =>
      let st1 := bisectionLevelPass bead (prop (l + 1)) b (l + 1) st
      if accepts (l + 1) then bisectionRun bead prop accepts b l st1
      else (st1, false)

/-- `BisectionMove::undoMove` (lines 707-724): walk the interior beads in
index order, restoring `originalPos(k)` wherever the `include` bit is
clear. -/
def bisectionUndoPos (bead : ℕ → beadLocator) (numActive : ℕ)
    (st : BisectionState β) : beadLocator → β :=
  (List.range numActive).foldl
    (fun p k => if st.includeBit k then p
      else Function.update p (bead k) (st.originalPos k)) st.pos

/-- The invariant tying an in-flight bisection state to the pre-proposal
positions `pos0`: every recorded original is the pre-proposal position of
its bead, and every bead not yet proposed (no cleared `include` bit points
at it) still holds its pre-proposal position. -/
def BisInv (bead : ℕ → beadLocator) (nA : ℕ) (pos0 : beadLocator → β)
    (st : BisectionState β) : Prop :=
  (∀ n < nA, st.includeBit n = false → st.originalPos n = pos0 (bead n)) ∧
  (∀ a : beadLocator,
    (∀ n < nA, st.includeBit n = false → bead n ≠ a) → st.pos a = pos0 a)

theorem bisectionIndices_lt (b level : ℕ) (hb : level ≤ b) :
    ∀ n ∈ bisectionIndices b level, n < 2 ^ b - 1 := by
  intro n hn
  rw [bisectionIndices, List.mem_map] at hn
  obtain ⟨j, hj, rfl⟩ := hn
  rw [List.mem_range] at hj
  set s := 2 ^ (level - 1) with hs
  have hdvd : s ∣ 2 ^ b := pow_dvd_pow 2 (by omega)
  have hspos : 0 < s := pow_pos (by norm_num) _
  have hsle : s ≤ 2 ^ b := Nat.le_of_dvd (pow_pos (by norm_num) _) hdvd
  have hmul : (2 ^ b / s - 1) * s = 2 ^ b - s := by
    rw [Nat.sub_mul, Nat.div_mul_cancel hdvd, one_mul]
  have hjs : (j + 1) * s ≤ 2 ^ b - s := by
    rw [← hmul]; exact Nat.mul_le_mul_right s (by omega)
  have ht : s ≤ (j + 1) * s := Nat.le_mul_of_pos_left s (by omega)
  omega

theorem bisectionVisit_inv (bead : ℕ → beadLocator) (nA : ℕ)
    (pos0 : beadLocator → β) (prop : ℕ → β) (level : ℕ)
    (st : BisectionState β) (n : ℕ) (hn : n < nA)
    (hinj : ∀ i j, i < nA → j < nA → bead i = bead j → i = j)
    (h : BisInv bead nA pos0 st) :
    BisInv bead nA pos0 (bisectionVisit bead prop level st n) := by
  obtain ⟨h1, h2⟩ := h
  rw [bisectionVisit]
  by_cases hinc : st.includeBit n
  · rw [if_pos hinc]
    constructor
    · intro m hm hmf
      dsimp only at hmf ⊢
      by_cases hmn : m = n
      · subst hmn
        rw [Function.update_same]
        exact h2 (bead m) (fun k hk hkf hbe => by
          have := hinj k m hk hm hbe
          subst this
          rw [hkf] at hinc
          exact Bool.false_ne_true hinc)
      · rw [Function.update_noteq hmn]
        rw [Function.update_noteq hmn] at hmf
        exact h1 m hm hmf
    · intro a ha
      dsimp only at ha ⊢
      have hna : bead n ≠ a := by
        refine ha n hn ?_
        rw [Function.update_same]
      rw [Function.update_noteq (fun hc => hna hc.symm)]
      refine h2 a (fun k hk hkf => ?_)
      refine ha k hk ?_
      by_cases hkn : k = n
      · subst hkn; rw [Function.update_same]
      · rw [Function.update_noteq hkn]; exact hkf
  · rw [if_neg hinc]
    by_cases hl : level = 1
    · rw [if_pos hl]
      refine ⟨h1, fun a ha => ?_⟩
      dsimp only at ha ⊢
      have hna : bead n ≠ a :=
        ha n hn (by simpa using hinc)
      rw [Function.update_noteq (fun hc => hna hc.symm)]
      exact h2 a ha
    · rw [if_neg hl]
      exact ⟨h1, h2⟩

theorem bisectionFold_inv (bead : ℕ → beadLocator) (nA : ℕ)
    (pos0 : beadLocator → β) (prop : ℕ → β) (level : ℕ)
    (hinj : ∀ i j, i < nA → j < nA → bead i = bead j → i = j) :
    ∀ (l : List ℕ), (∀ n ∈ l, n < nA) →
      ∀ st : BisectionState β, BisInv bead nA pos0 st →
        BisInv bead nA pos0 (l.foldl (bisectionVisit bead prop level) st) := by
  intro l
  induction l with
  | nil => intro _ st h; simpa using h
  | cons m rest ih =>
      intro hlt st h
      rw [List.foldl_cons]
      exact ih (fun n hn => hlt n (by simp [hn]))
        _ (bisectionVisit_inv bead nA pos0 prop level st m
            (hlt m (by simp)) hinj h)

theorem bisectionLevelPass_inv (bead : ℕ → beadLocator) (nA : ℕ)
    (pos0 : beadLocator → β) (prop : ℕ → β) (b level : ℕ)
    (hlt : ∀ n ∈ bisectionIndices b level, n < nA)
    (hinj : ∀ i j, i < nA → j < nA → bead i = bead j → i = j)
    (st : BisectionState β) (h : BisInv bead nA pos0 st) :
    BisInv bead nA pos0 (bisectionLevelPass bead prop b level st) :=
  bisectionFold_inv bead nA pos0 prop level hinj _ hlt st h

theorem bisectionRun_inv (bead : ℕ → beadLocator) (nA : ℕ)
    (pos0 : beadLocator → β) (prop : ℕ → ℕ → β) (accepts : ℕ → Bool)
    (b : ℕ) (hnA : nA = 2 ^ b - 1)
    (hinj : ∀ i j, i < nA → j < nA → bead i = bead j → i = j) :
    ∀ (level : ℕ), level ≤ b →
      ∀ st : BisectionState β, BisInv bead nA pos0 st →
        BisInv bead nA pos0 (bisectionRun bead prop accepts b level st).1 := by
  intro level
  induction level with
  | zero => intro _ st h; exact h
  | succ l ih =>
      intro hle st h
      rw [bisectionRun]
      have h1 : BisInv bead nA pos0
          (bisectionLevelPass bead (prop (l + 1)) b (l + 1) st) :=
        bisectionLevelPass_inv bead nA pos0 (prop (l + 1)) b (l + 1)
          (fun n hn => hnA ▸ bisectionIndices_lt b (l + 1) hle n hn) hinj st h
      by_cases hacc : accepts (l + 1)
      · rw [if_pos hacc]
        exact ih (by omega) _ h1
      · rw [if_neg hacc]
        exact h1

/-- The undo loop written as a sequential write list over the cleared
(`include = false`) indices. -/
theorem bisectionUndoPos_eq_writeSeq (bead : ℕ → beadLocator) (nA : ℕ)
    (st : BisectionState β) :
    bisectionUndoPos bead nA st =
      writeSeq st.pos (((List.range nA).filter
        (fun k => !st.includeBit k)).map
          (fun k => (bead k, st.originalPos k))) := by
  rw [bisectionUndoPos]
  generalize List.range nA = l
  induction l generalizing st with
  | nil => rfl
  | cons k rest ih =>
      rw [List.foldl_cons, List.filter_cons]
      by_cases hk : st.includeBit k
      · rw [if_pos hk, if_neg (by simp [hk])]
        exact ih st
      · rw [if_neg hk, if_pos (by simp [hk]), List.map_cons, writeSeq]
        have := ih { st with pos := Function.update st.pos (bead k) (st.originalPos k) }
        simpa using this

/-- Undoing from any state satisfying the invariant restores the
pre-proposal positions exactly. -/
theorem bisectionUndoPos_restores (bead : ℕ → beadLocator) (nA : ℕ)
    (pos0 : beadLocator → β) (st : BisectionState β)
    (hinj : ∀ i j, i < nA → j < nA → bead i = bead j → i = j)
    (h : BisInv bead nA pos0 st) :
    bisectionUndoPos bead nA st = pos0 := by
  obtain ⟨h1, h2⟩ := h
  rw [bisectionUndoPos_eq_writeSeq]
  set ks := (List.range nA).filter (fun k => !st.includeBit k) with hks
  have hmem : ∀ k ∈ ks, k < nA ∧ st.includeBit k = false := by
    intro k hk
    rw [hks, List.mem_filter, List.mem_range] at hk
    exact ⟨hk.1, by simpa using hk.2⟩
  have hmape : ks.map (fun k => (bead k, st.originalPos k)) =
      (ks.map bead).map (fun a => (a, pos0 a)) := by
    rw [List.map_map]
    refine List.map_congr_left (fun k hk => ?_)
    obtain ⟨hklt, hkf⟩ := hmem k hk
    simp only [Function.comp]
    rw [h1 k hklt hkf]
  rw [hmape]
  refine writeSeq_restore pos0 (ks.map bead) st.pos ?_ ?_
  · refine List.Nodup.map_on (fun i hi j hj hij =>
      hinj i j (hmem i hi).1 (hmem j hj).1 hij) ?_
    exact List.Nodup.filter _ (List.nodup_range nA)
  · intro a ha
    refine h2 a (fun n hn hnf hbe => ha ?_)
    rw [List.mem_map]
    refine ⟨n, ?_, hbe⟩
    rw [hks, List.mem_filter, List.mem_range]
    exact ⟨hn, by simp [hnf]⟩

end Bisection

/-! ## Swap head move (move.cpp lines 2339-2539)

`SwapHeadMove::attemptMove`, once past the pre-Metropolis `PNorm` test,
edits the Path in place: it marks the special beads, records the `m`
interior bead positions strictly between the swap bead and the pivot (in
next-link order), relinks `head → next(swap)` so that `swap` becomes the
terminated new head, regenerates the interior positions by the staging
kernel, and runs the final Metropolis test.  On rejection
`SwapHeadMove::undoMove` (lines 2510-2539) reverses the relinking and
writes the recorded originals back.  The state also carries the worm
`length`/`gap` fields and the Action's shift level: the reject path of
the source never touches them, and `SwapHeadMove` contains no `setShift`
call at all. -/

section SwapHead

variable {β : Type}

/-- The Path/worm data `SwapHeadMove` can touch, plus the Action's shift
level (`ActionBase::setShift` state). -/
structure SwapHeadState (β : Type) where
  pos : beadLocator → β
  nextL : beadLocator → beadLocator
  prevL : beadLocator → beadLocator
  head : beadLocator
  tail : beadLocator
  special1 : beadLocator
  special2 : beadLocator
  wormLength : Int
  wormGap : Int
  isConfigDiagonal : Bool
  shift : ℕ

/-- The recorded `originalPos` values (lines 2419-2428): the loop walks
from `swap` to the pivot and stores the position of every bead that is
neither `swap` nor the pivot, i.e. the `m` interior beads in next-link
order. -/
def swapHeadOriginals (s0 : SwapHeadState β) (swap : beadLocator)
    (m : ℕ) : List β :=
  (chainFrom s0.nextL swap m).map s0.pos

/-- The proposal phase of `SwapHeadMove::attemptMove` past the `PNorm`
test (lines 2414-2463): mark specials, relink, make `swap` the new head,
and regenerate the interior positions along the new chain from the old
head toward the pivot (the `newStagingPosition` draws abstracted into the
oracle list `vals`). -/
def swapHeadProposal (s0 : SwapHeadState β) (swap pivot : beadLocator)
    (m : ℕ) (vals : List β) : SwapHeadState β :=
  let s1 : SwapHeadState β := { s0 with special1 := swap, special2 := pivot }
  let nextSwap := s1.nextL swap
  let s2 : SwapHeadState β := { s1 with
    nextL := Function.update (Function.update s1.nextL s1.head nextSwap) swap XXX
    prevL := Function.update s1.prevL nextSwap s1.head }
  let s3 : SwapHeadState β := { s2 with special1 := s2.head, head := swap }
  { s3 with pos := writeSeq s3.pos ((chainFrom s3.nextL s3.special1 m).zip vals) }

/-- `SwapHeadMove::undoMove` (lines 2510-2539): reassign the head, return
the links to their un-swapped values, restore the interior positions in
traversal order, and unset the special beads. -/
def swapHeadUndo (s : SwapHeadState β) (swap : beadLocator) (m : ℕ)
    (nextSwap : beadLocator) (originals : List β) : SwapHeadState β :=
  let s1 : SwapHeadState β := { s with head := s.special1 }
  let s2 : SwapHeadState β := { s1 with
    nextL := Function.update (Function.update s1.nextL s1.head XXX) swap nextSwap
    prevL := Function.update s1.prevL nextSwap swap }
  let s3 : SwapHeadState β := { s2 with
    pos := writeSeq s2.pos ((chainFrom s2.nextL swap m).zip originals) }
  { s3 with isConfigDiagonal := false, special1 := XXX, special2 := XXX }

/-- The rejected-attempt path of `SwapHeadMove`: proposal followed by
undo, with `nextSwap` and the original positions recorded by the move
before relinking (member data of the move object). -/
def swapHeadAttemptReject (s0 : SwapHeadState β) (swap pivot : beadLocator)
    (m : ℕ) (vals : List β) : SwapHeadState β :=
  swapHeadUndo (swapHeadProposal s0 swap pivot m vals) swap m
    (s0.nextL swap) (swapHeadOriginals s0 swap m)

/-- `SwapHeadMove::keepMove` (lines 2491-2504): update the acceptance
counters and the worm through `Worm::update(path, swap, tail)`.
`Worm::update` lives in path.cpp, outside the staged sources; modelled
from the spec: it recomputes the worm endpoints, length and gap (oracle
values here) and has no access to the Action, so it cannot change the
shift level; the `keepMove` body itself contains no `setShift` call. -/
def swapHeadKeepMove (newLength newGap : Int) (swap : beadLocator)
    (s : SwapHeadState β) : SwapHeadState β :=
  { s with head := swap, wormLength := newLength, wormGap := newGap }

/-- Zipping a list with its image under `g` lists the graph pairs. -/
theorem zip_map_self {α γ : Type} (l : List α) (g : α → γ) :
    l.zip (l.map g) = l.map (fun a => (a, g a)) := by
  induction l with
  | nil => rfl
  | cons a l ih => rw [List.map_cons, List.zip_cons_cons, ih, List.map_cons]

/-- Two chains coincide when their link functions agree step by step:
the first steps land on the same bead, and the two link functions agree
on the common chain. -/
theorem chainFrom_shift (nxt nxt' : beadLocator → beadLocator)
    (b b' : beadLocator) (m : ℕ)
    (hstart : nxt' b' = nxt b)
    (hmid : ∀ c ∈ chainFrom nxt b m, nxt' c = nxt c) :
    chainFrom nxt' b' m = chainFrom nxt b m := by
  have key : ∀ k < m, nxt'^[k + 1] b' = nxt^[k + 1] b := by
    intro k hk
    induction k with
    | zero => simpa using hstart
    | succ n ihn =>
        rw [Function.iterate_succ_apply' nxt' (n + 1) b',
          Function.iterate_succ_apply' nxt (n + 1) b, ihn (by omega)]
        refine hmid _ ?_
        rw [mem_chainFrom]
        exact ⟨n, by omega, rfl⟩
  unfold chainFrom
  refine List.map_congr_left (fun k hk => ?_)
  rw [List.mem_range] at hk
  exact key k hk

/-- Rejected swap-head attempts restore the configuration exactly, under
the link invariants of the data model: the pivot is `m+1` next-steps past
the swap bead, the walked beads are pairwise distinct, the worm head has
no outgoing link, links are symmetric at the swap bead, the special
markers are unset outside a move and the configuration is off-diagonal. -/
theorem swapHeadAttemptReject_restores (s0 : SwapHeadState β)
    (swap pivot : beadLocator) (m : ℕ) (vals : List β)
    (hpivot : s0.nextL^[m + 1] swap = pivot)
    (hnodup : (s0.head :: swap :: pivot :: chainFrom s0.nextL swap m).Nodup)
    (hheadnil : s0.nextL s0.head = XXX)
    (hprev : s0.prevL (s0.nextL swap) = swap)
    (hsp1 : s0.special1 = XXX) (hsp2 : s0.special2 = XXX)
    (hdiag : s0.isConfigDiagonal = false) :
    swapHeadAttemptReject s0 swap pivot m vals = s0 := by
  obtain ⟨pos0, nxt0, prv0, head0, tail0, sp1, sp2, len0, gap0, diag0, sh0⟩ := s0
  simp only at hpivot hnodup hheadnil hprev hsp1 hsp2 hdiag
  subst hsp1 hsp2 hdiag
  rw [List.nodup_cons] at hnodup
  obtain ⟨hhead_not, hnodup⟩ := hnodup
  rw [List.nodup_cons] at hnodup
  obtain ⟨hswap_not, hnodup⟩ := hnodup
  rw [List.nodup_cons] at hnodup
  obtain ⟨hpiv_not, hicnd⟩ := hnodup
  have hhs : head0 ≠ swap := fun h => hhead_not (by simp [h])
  have hhic : head0 ∉ chainFrom nxt0 swap m :=
    fun h => hhead_not (by simp [h])
  have hsic : swap ∉ chainFrom nxt0 swap m :=
    fun h => hswap_not (by simp [h])
  have factA : chainFrom
      (Function.update (Function.update nxt0 head0 (nxt0 swap))
        swap XXX) head0 m = chainFrom nxt0 swap m := by
    refine chainFrom_shift nxt0 _ swap head0 m ?_ ?_
    · rw [Function.update_noteq hhs, Function.update_same]
    · intro c hc
      have hc1 : c ≠ swap := fun h => hsic (h ▸ hc)
      have hc2 : c ≠ head0 := fun h => hhic (h ▸ hc)
      rw [Function.update_noteq hc1, Function.update_noteq hc2]
  have factB : Function.update (Function.update
      (Function.update (Function.update nxt0 head0 (nxt0 swap))
        swap XXX) head0 XXX) swap (nxt0 swap) = nxt0 := by
    funext a
    by_cases ha1 : a = swap
    · subst ha1; rw [Function.update_same]
    · rw [Function.update_noteq ha1]
      by_cases ha2 : a = head0
      · subst ha2; rw [Function.update_same, hheadnil]
      · rw [Function.update_noteq ha2, Function.update_noteq ha1,
          Function.update_noteq ha2]
  have factC : Function.update (Function.update prv0 (nxt0 swap)
      head0) (nxt0 swap) swap = prv0 := by
    rw [Function.update_idem, Function.update_eq_iff]
    exact ⟨hprev.symm, fun b hb => rfl⟩
  have hpos : writeSeq (writeSeq pos0
        ((chainFrom nxt0 swap m).zip vals))
      ((chainFrom nxt0 swap m).map (fun k => (k, pos0 k))) = pos0 :=
    writeSeq_restore pos0 (chainFrom nxt0 swap m) _ hicnd
      (fun a ha => writeSeq_notMem _ _ _
        (fun hmem => ha (mem_of_mem_map_fst_zip hmem)))
  simp only [swapHeadAttemptReject, swapHeadUndo, swapHeadProposal,
    swapHeadOriginals]
  rw [factA, factB, zip_map_self, hpos, factC]

end SwapHead

/-! ## Center-of-mass move (move.cpp lines 286-398)

`CenterOfMassMove::attemptMove` has four pre-proposal exits that return
`false` without calling `keepMove` or `undoMove` and without touching any
bead: slice 0 empty (lines 292-293), start bead on a worm of length at
least `numTimeSlices` (lines 305-307), closed worldline longer than
`numTimeSlices` (lines 318-325), and a shifted bead leaving a
non-periodic cell (lines 341-352).  Only then are the beads shifted
(lines 358-364) and the Metropolis test run (lines 370-377). -/

/-- How often each internal helper ran during one `attemptMove`, plus the
returned `success` flag. -/
structure MoveCallTrace where
  success : Bool
  keepCalls : ℕ
  undoCalls : ℕ
  deriving DecidableEq

/-- The external observations `CenterOfMassMove::attemptMove` makes: the
slice-0 occupancy, the random draws, the worm test, the worldline length
count, the box-containment check and the Metropolis outcome. -/
structure ComEnv where
  numBeadsAtSlice0 : ℕ
  randOffset : Int
  onWorm : Bool
  wormLength : ℕ
  numTimeSlices : ℕ
  wlLength : ℕ
  boundaryOK : Bool
  accept : Bool

/-- The start bead (line 296): the blitz comma-list assignment
`startBead = 0,random.randInt(path.numBeadsAtSlice(0)-1)` sets component
0 (the slice) to 0 and component 1 to the random offset. -/
def comStartBead (e : ComEnv) : beadLocator := (0, e.randOffset)

/-- `CenterOfMassMove::attemptMove` over an abstract bead-position store:
the four pre-proposal exits return the store untouched with neither
helper called; past them the worldline is shifted (`propose`, lines
358-364) and the Metropolis test either keeps the shift (line 371) or
undoes it (`undoShift`, `CenterOfMassMove::undoMove` lines 385-398). -/
def comAttemptFull {β : Type} (e : ComEnv) (pos : beadLocator → β)
    (propose undoShift : (beadLocator → β) → (beadLocator → β)) :
    MoveCallTrace × (beadLocator → β) :=
  if e.numBeadsAtSlice0 = 0 then (⟨false, 0, 0⟩, pos)
  else if e.onWorm ∧ e.numTimeSlices ≤ e.wormLength then (⟨false, 0, 0⟩, pos)
  else if ¬e.onWorm ∧ e.numTimeSlices < e.wlLength then (⟨false, 0, 0⟩, pos)
  else if ¬e.boundaryOK then (⟨false, 0, 0⟩, pos)
  else
    if e.accept then (⟨true, 1, 0⟩, propose pos)
    else (⟨false, 0, 1⟩, undoShift (propose pos))

/-! ## Open move (move.cpp lines 763-920) -/

/-- The external observations `OpenMove::attemptMove` makes. -/
structure OpenEnv where
  Mbar : ℕ
  numTimeSlices : ℕ
  uGap : ℕ
  uSlice : ℕ
  uOffset : Int
  tooCostly : Bool
  localAction : Bool
  slicePass : ℕ → Bool
  finalAccept : Bool

/-- The proposed gap length as a function of the `randInt(Mbar/2-1)`
draw (line 769): `2*(1 + u)`. -/
def openGapLengthOf (u : ℕ) : ℕ := 2 * (1 + u)

/-- The proposed gap length of one attempt. -/
def openGapLength (e : OpenEnv) : ℕ := openGapLengthOf e.uGap

/-- The head bead's slice as a function of the `randInt(M/2-1)` draw
(line 775): `2*u`. -/
def openHeadSliceOf (u : ℕ) : ℕ := 2 * u

/-- The head bead (lines 775-776): an even random slice, a random offset
on it. -/
def openHeadBead (e : OpenEnv) : beadLocator :=
  ((openHeadSliceOf e.uSlice : Int), e.uOffset)

/-- The tail bead (line 779): `path.next(headBead, gapLength)`, the bead
reached from the head by following `next` exactly `gapLength` times. -/
def openTailBead (nxt : beadLocator → beadLocator) (e : OpenEnv) :
    beadLocator :=
  nxt^[openGapLength e] (openHeadBead e)

/-- Whether every single-slice Metropolis test of the local-action
rejection loop passes (lines 826-840): the loop walks the `gapLength`
beads from the head and exits at the first failure. -/
def openSliceLoopPasses (e : OpenEnv) : Bool :=
  (List.range (openGapLength e)).all e.slicePass

/-- The helper-call trace of `OpenMove::attemptMove`: when the proposed
worm is too costly the whole move body is skipped (line 786); otherwise
the local action runs the per-slice rejection loop (`undoMove` at the
first failing slice, lines 832-835) and then the final test (lines
848-855), and the non-local action runs the full-trajectory test (lines
866-873). -/
def openAttemptTrace (e : OpenEnv) : MoveCallTrace :=
  if e.tooCostly then ⟨false, 0, 0⟩
  else if e.localAction then
    if openSliceLoopPasses e then
      if e.finalAccept then ⟨true, 1, 0⟩ else ⟨false, 0, 1⟩
    else ⟨false, 0, 1⟩
  else
    if e.finalAccept then ⟨true, 1, 0⟩ else ⟨false, 0, 1⟩

/-! ## Action shift level (move.cpp lines 151-159, 616-724, 2491-2504)

`ActionBase::setShift` is called from exactly five places in move.cpp:
`MoveBase::keepMove` (line 156), the bisection level loop (line 621),
`BisectionMove::keepMove` (line 696), `BisectionMove::undoMove` (line
722) and `SwapTailMove::keepMove` (line 2742) — always with argument 1
except inside the bisection level loop. -/

/-- `MoveBase` acceptance bookkeeping state. -/
structure MoveCounters where
  numAccepted : ℕ
  totAccepted : ℕ
  shift : ℕ
  success : Bool

/-- `MoveBase::keepMove` (lines 151-159): bump the counters and restore
the shift level for the time step to 1. -/
def moveBaseKeepMove (c : MoveCounters) : MoveCounters :=
  { numAccepted := c.numAccepted + 1, totAccepted := c.totAccepted + 1,
    shift := 1, success := true }

/-- The effect of the `BisectionMove::attemptMove` level loop (lines
616-679) on the shift level, with `accepts` the per-level Metropolis
oracle: each level `l` first sets the shift to `2^(l-1)` (lines 620-621);
acceptance at level 1 runs `BisectionMove::keepMove` which sets it to 1
(line 696), any rejection runs `BisectionMove::undoMove` which sets it to
1 (line 722), and acceptance above level 1 descends a level. -/
def bisectionShiftTrace (accepts : ℕ → Bool) : ℕ → ℕ → ℕ
  | 0, shift => shift
  | level + 1, _ =>
      let s := 2 ^ level
      if accepts (level + 1) then
        if level = 0 then 1
        else bisectionShiftTrace accepts level s
      else 1

theorem bisectionShiftTrace_pos (accepts : ℕ → Bool) :
    ∀ level s0, 1 ≤ level → bisectionShiftTrace accepts level s0 = 1 := by
  intro level
  induction level with
  | zero => intro s0 h; omega
  | succ l ih =>
      intro s0 _
      rw [bisectionShiftTrace]
      by_cases hacc : accepts (l + 1)
      · rw [if_pos hacc]
        by_cases hl : l = 0
        · rw [if_pos hl]
        · rw [if_neg hl]
          exact ih _ (by omega)
      · rw [if_neg hacc]

/-! ## Acceptance probabilities and LBIG (common.h line 98)

`LBIG` is defined in common.h but appears nowhere in move.cpp: every
acceptance test evaluates `exp` directly. -/

/-- The log of a big number (common.h line 98). -/
noncomputable def LBIG : ℝ := 69.07755279

/-- The final Metropolis acceptance probability of
`CenterOfMassMove::attemptMove` (line 370): a direct evaluation of
`exp(-(newAction - oldAction))`, with `deltaS` the action difference. -/
noncomputable def comAcceptProbability (deltaS : ℝ) : ℝ := Real.exp (-deltaS)

/-- The single-slice acceptance probability of the open move's
local-action rejection loop (line 828): `min(exp(-deltaAction)/PNorm, 1)`. -/
noncomputable def openSliceProbability (deltaAction PNorm : ℝ) : ℝ :=
  min (Real.exp (-deltaAction) / PNorm) 1

/-- The final local-action acceptance threshold of
`OpenMove::attemptMove` (line 848): `exp(-deltaAction)/PNorm`. -/
noncomputable def openFinalThreshold (deltaAction PNorm : ℝ) : ℝ :=
  Real.exp (-deltaAction) / PNorm

/-! ## Staging kernel position (move.cpp lines 171-196)

`MoveBase::newStagingPosition` computes the midpoint that exactly samples
the kinetic density matrix and kicks it by a Gaussian; `putInBC`
(minimum-image reduction of separations) and `putInside` (wrap into the
cell) belong to the external Container and are taken as function
parameters. -/

/-- `MTRand::randNorm(mean, sigma)` modelled with an explicit standard
normal deviate `xi`. -/
def randNorm (mean sigma xi : ℝ) : ℝ := mean + sigma * xi

/-- `sqrt(lambda * tau)` (MoveBase constructor, line 38). -/
noncomputable def sqrtLambdaTau (lambda tau : ℝ) : ℝ := Real.sqrt (lambda * tau)

/-- `sqrt(2) * sqrtLambdaTau` (MoveBase constructor, line 39). -/
noncomputable def sqrt2LambdaTau (lambda tau : ℝ) : ℝ :=
  Real.sqrt 2 * sqrtLambdaTau lambda tau

/-- `MoveBase::newStagingPosition` (lines 171-196), coordinate-wise over
`D = NDIM` dimensions: `f1 = stageLength - k - 1`,
`f2 = 1/(stageLength - k)`, Gaussian stddev
`sqrt2LambdaTau * sqrt(f1*f2)`, midpoint
`putInBC(endPos - neighborPos) * f2 + neighborPos`, then the per-
coordinate Gaussian kick and the final wrap. -/
noncomputable def newStagingPosition (D : ℕ) (lambda tau : ℝ)
    (putInBC putInside : (Fin D → ℝ) → (Fin D → ℝ))
    (neighborPos endPos : Fin D → ℝ) (stageLength k : ℤ)
    (xi : Fin D → ℝ) : Fin D → ℝ :=
  let f1 : ℝ := 1 * ((stageLength : ℝ) - (k : ℝ) - 1)
  let f2 : ℝ := 1 / (1 * ((stageLength : ℝ) - (k : ℝ)))
  let sqrtLambdaKTau : ℝ := sqrt2LambdaTau lambda tau * Real.sqrt (f1 * f2)
  let sep := putInBC (fun i => endPos i - neighborPos i)
  let mid := fun i => sep i * f2 + neighborPos i
  putInside (fun i => randNorm (mid i) sqrtLambdaKTau (xi i))

/-- The staging position as the specification words it: the midpoint
`m = p_n + (p_e - p_n)·(1/(L-k))` with the separation reduced by the
minimum-image convention, then a Gaussian kick on `m` with stddev
`sqrt(2·lambda·tau·(L-k-1)/(L-k))`, wrapped into the cell. -/
noncomputable def specStagingPosition (D : ℕ) (lambda tau : ℝ)
    (putInBC putInside : (Fin D → ℝ) → (Fin D → ℝ))
    (neighborPos endPos : Fin D → ℝ) (stageLength k : ℤ)
    (xi : Fin D → ℝ) : Fin D → ℝ :=
  let L : ℝ := (stageLength : ℝ)
  let kr : ℝ := (k : ℝ)
  let sep := putInBC (fun i => endPos i - neighborPos i)
  let mid := fun i => neighborPos i + sep i * (1 / (L - kr))
  let sigma := Real.sqrt (2 * lambda * tau * ((L - kr - 1) / (L - kr)))
  putInside (fun i => mid i + sigma * xi i)

/-! ## Remove move (move.cpp lines 1359-1492)

`RemoveMove::attemptMove` rejects outright — touching nothing — unless
`1 ≤ worm.length ≤ Mbar` and at least one true particle remains (lines
1363-1365).  Past the guard, the local-action branch only reads actions
along the worm (lines 1388-1429); all worldline edits happen in
`RemoveMove::keepMove` (lines 1455-1479), and `RemoveMove::undoMove`
(lines 1485-1492) merely re-asserts the off-diagonal flag. -/

/-- The external observations `RemoveMove::attemptMove` makes. -/
structure RemoveEnv where
  Mbar : Int
  trueNumParticles : Int
  localAction : Bool
  slicePass : ℕ → Bool
  finalAccept : Bool

/-- The Path data as `RemoveMove` can affect it: the worldline stores are
abstracted into `pathData` (edited only by the keep path, which deletes
the worm's beads). -/
structure RemoveState (σ : Type) where
  pathData : σ
  wormLength : Int
  isConfigDiagonal : Bool

/-- `RemoveMove::undoMove` (lines 1485-1492): reset the configuration to
off-diagonal; the worldlines were never touched. -/
def removeUndoMove {σ : Type} (s : RemoveState σ) : RemoveState σ :=
  { s with isConfigDiagonal := false }

/-- `RemoveMove::keepMove` (lines 1455-1479): delete the worm's beads
from the worldline stores, reset the worm (`Worm::reset` lives in
path.cpp, outside the staged sources; modelled from the spec: no worm
remains, so its length is 0) and mark the configuration diagonal. -/
def removeKeepMove {σ : Type} (deleteWorm : σ → σ) (s : RemoveState σ) :
    RemoveState σ :=
  { pathData := deleteWorm s.pathData, wormLength := 0,
    isConfigDiagonal := true }

/-- `RemoveMove::attemptMove` (lines 1359-1449): the guard of lines
1363-1365, then the local-action per-slice rejection loop (lines
1401-1415) or the full-trajectory test, each ending in `keepMove` or
`undoMove`. -/
def removeAttemptMove {σ : Type} (deleteWorm : σ → σ) (e : RemoveEnv)
    (s : RemoveState σ) : Bool × RemoveState σ :=
  if e.Mbar < s.wormLength ∨ s.wormLength < 1 ∨ e.trueNumParticles < 1 then
    (false, s)
  else if e.localAction then
    if (List.range (s.wormLength - 1).toNat).all e.slicePass then
      if e.finalAccept then (true, removeKeepMove deleteWorm s)
      else (false, removeUndoMove s)
    else (false, removeUndoMove s)
  else
    if e.finalAccept then (true, removeKeepMove deleteWorm s)
    else (false, removeUndoMove s)

/-! ## Classical Monte Carlo variant (cmc.cpp)

The configuration is the list of live particle positions (the code keeps
them in the first `numParticles` slots of a capacity-managed blitz
array).  The external potential, the interaction potential composed with
the minimum-image separation, and the box's random position are function
parameters; `intVsep a b` stands for
`interactionPtr->V(putInside(a - b))`. -/

/-- The constants the classical variant reads. -/
structure CMCConsts where
  mu : ℝ
  T : ℝ
  dBWavelength : ℝ
  volume : ℝ

/-- The classical Monte Carlo state: live particle positions and the
accumulated total energy. -/
structure CMCState (γ : Type) where
  config : List γ
  energy : ℝ

/-- The fugacity `z` (cmc.cpp line 37):
`exp(mu/T) / dBWavelength^NDIM`. -/
noncomputable def fugacity (D : ℕ) (c : CMCConsts) : ℝ :=
  Real.exp (c.mu / c.T) / c.dBWavelength ^ D

/-- The fugacity as the specification words it: `z = exp(μ/T)/Λ^D` with
`Λ` the thermal de Broglie wavelength. -/
noncomputable def specFugacity (D : ℕ) (c : CMCConsts) : ℝ :=
  Real.exp (c.mu / c.T) / c.dBWavelength ^ D

/-- The candidate's energy in `ClassicalMonteCarlo::insertMove` (lines
180-185): external potential at the new position plus the interaction
with every existing particle (`p2` ranges over all live particles). -/
noncomputable def insertNewE {γ : Type} [Inhabited γ] (extV : γ → ℝ)
    (intVsep : γ → γ → ℝ) (newPos : γ) (config : List γ) : ℝ :=
  extV newPos +
    ∑ p2 ∈ Finset.range config.length, intVsep newPos (config.getD p2 default)

/-- The deleted particle's energy in `ClassicalMonteCarlo::deleteMove`
(lines 222-229): external potential at its position plus the interaction
with every other particle (the loop skips `p2 = p`). -/
noncomputable def deleteOldE {γ : Type} [Inhabited γ] (extV : γ → ℝ)
    (intVsep : γ → γ → ℝ) (config : List γ) (p : ℕ) : ℝ :=
  extV (config.getD p default) +
    ∑ p2 ∈ Finset.range config.length,
      if p2 = p then 0 else intVsep (config.getD p default) (config.getD p2 default)

/-- The full pairwise-plus-external energy of one particle against a list
of other particles, as the specification words it. -/
noncomputable def specParticleEnergy {γ : Type} (extV : γ → ℝ)
    (intVsep : γ → γ → ℝ) (pos : γ) (others : List γ) : ℝ :=
  extV pos + (others.map (intVsep pos)).sum

/-- `ClassicalMonteCarlo::insertMove` (lines 166-201): a uniform-random
position `newPos` is accepted with probability
`z·V/(N+1) · exp(-newE/T)` (`u` is the `rand()` draw); on acceptance the
particle is appended and the energy incremented. -/
noncomputable def insertMove {γ : Type} [Inhabited γ] (D : ℕ) (c : CMCConsts)
    (extV : γ → ℝ) (intVsep : γ → γ → ℝ) (newPos : γ) (u : ℝ)
    (st : CMCState γ) : CMCState γ :=
  let newE := insertNewE extV intVsep newPos st.config
  let factor := fugacity D c * c.volume / ((st.config.length : ℝ) + 1)
  if u < factor * Real.exp (-newE / c.T) then
    { config := st.config ++ [newPos], energy := st.energy + newE }
  else st

/-- `ClassicalMonteCarlo::deleteMove` (lines 207-245): particle `p` is
removed with probability `N/(z·V) · exp(+oldE/T)`; on acceptance the last
particle moves into its slot and the count shrinks. -/
noncomputable def deleteMove {γ : Type} [Inhabited γ] (D : ℕ) (c : CMCConsts)
    (extV : γ → ℝ) (intVsep : γ → γ → ℝ) (p : ℕ) (u : ℝ)
    (st : CMCState γ) : CMCState γ :=
  let oldE := deleteOldE extV intVsep st.config p
  let factor := (st.config.length : ℝ) / (fugacity D c * c.volume)
  if u < factor * Real.exp (oldE / c.T) then
    { config := (st.config.set p (st.config.getLast?.getD default)).dropLast,
      energy := st.energy - oldE }
  else st

/-! ## Missing zero-particle guards (cmc.cpp lines 111-160, 207-245)

`ClassicalMonteCarlo::updateMove` and `deleteMove` start with
`int p = random.randInt(numParticles-1)` and then read `config(p)`.
`MTRand::randInt` takes an unsigned 32-bit argument, so `numParticles-1`
is converted modulo `2^32`; with zero particles the argument is
`4294967295` and the subsequent `config(p)` read is outside the live
configuration for every possible draw.  The embeddings below make the
indexing checked, returning `none` on an out-of-range access. -/

/-- The value actually passed to `MTRand::randInt(uint32)`: the C++
`int → uint32` conversion reduces the argument modulo `2^32`. -/
def randIntArg (n : Int) : ℕ := (n % (2 ^ 32 : Int)).toNat

/-- `ClassicalMonteCarlo::updateMove` (lines 111-160) with checked
configuration indexing: draw particle `p` (oracle `o`), read its
position, displace it by the box's `randUpdate` (parameter `randUpd`),
and accept or reject by the Metropolis test on the energy difference. -/
noncomputable def updateMoveChecked {γ : Type} [Inhabited γ] (c : CMCConsts)
    (extV : γ → ℝ) (intVsep : γ → γ → ℝ) (randUpd : γ → γ) (o : ℕ) (u : ℝ)
    (st : CMCState γ) : Option (CMCState γ) :=
  match st.config.get? o with
  | none => none
  | some oldPos =>
      let oldE := deleteOldE extV intVsep st.config o
      let newPos := randUpd oldPos
      let newCfg := st.config.set o newPos
      let newE := deleteOldE extV intVsep newCfg o
      if u < Real.exp (-(newE - oldE) / c.T) then
        some { config := newCfg, energy := st.energy + (newE - oldE) }
      else some st

/-- `ClassicalMonteCarlo::deleteMove` with checked configuration
indexing: `none` exactly when the drawn index is outside the live
configuration. -/
noncomputable def deleteMoveChecked {γ : Type} [Inhabited γ] (D : ℕ)
    (c : CMCConsts) (extV : γ → ℝ) (intVsep : γ → γ → ℝ) (o : ℕ) (u : ℝ)
    (st : CMCState γ) : Option (CMCState γ) :=
  match st.config.get? o with
  | none => none
  | some _ => some (deleteMove D c extV intVsep o u st)

/-! ## Claim theorems -/

/-- The four pre-proposal exit conditions of
`CenterOfMassMove::attemptMove`, in source order. -/
def comEarlyExit (e : ComEnv) : Prop :=
  e.numBeadsAtSlice0 = 0 ∨ (e.onWorm ∧ e.numTimeSlices ≤ e.wormLength) ∨
    (¬e.onWorm ∧ e.numTimeSlices < e.wlLength) ∨ ¬e.boundaryOK

instance (e : ComEnv) : Decidable (comEarlyExit e) := by
  unfold comEarlyExit
  infer_instance

/-- C2: starting from shift level 1, no execution of any attemptMove can
terminate with the shift different from 1: the bisection level loop ends
at 1 for every Metropolis oracle (via `BisectionMove::keepMove` or
`BisectionMove::undoMove`); `MoveBase::keepMove` sets it to 1; and the
`SwapHeadMove` paths — including the accept path, whose `keepMove`
override contains no `setShift` call — never change it. -/
theorem c2_shift_restored_to_one :
    (∀ (accepts : ℕ → Bool) (level s0 : ℕ), 1 ≤ level →
      bisectionShiftTrace accepts level s0 = 1) ∧
    (∀ (accepts : ℕ → Bool) (level : ℕ),
      bisectionShiftTrace accepts level 1 = 1) ∧
    (∀ c : MoveCounters, (moveBaseKeepMove c).shift = 1) ∧
    (∀ (β : Type) (s0 : SwapHeadState β) (swap pivot : beadLocator)
        (m : ℕ) (vals : List β),
      (swapHeadProposal s0 swap pivot m vals).shift = s0.shift ∧
      (swapHeadAttemptReject s0 swap pivot m vals).shift = s0.shift) ∧
    (∀ (β : Type) (newLength newGap : Int) (swap : beadLocator)
        (s : SwapHeadState β),
      (swapHeadKeepMove newLength newGap swap s).shift = s.shift) := by
  refine ⟨bisectionShiftTrace_pos, ?_, fun c => rfl, ?_, fun β nl ng sw s => rfl⟩
  · intro accepts level
    cases level with
    | zero => rfl
    | succ l => exact bisectionShiftTrace_pos accepts (l + 1) 1 (by omega)
  · intro β s0 swap pivot m vals
    exact ⟨rfl, rfl⟩

/-- C2 witness: a concrete two-level bisection whose first level rejects,
and a concrete keepMove, both ending at shift level 1. -/
theorem c2_shift_witness :
    1 ≤ 2 ∧ bisectionShiftTrace (fun _ => false) 2 1 = 1 ∧
      (moveBaseKeepMove ⟨0, 0, 4, false⟩).shift = 1 :=
  ⟨by decide, c2_shift_restored_to_one.1 (fun _ => false) 2 1 (by decide),
    c2_shift_restored_to_one.2.2.1 ⟨0, 0, 4, false⟩⟩

/-- C3 counterexample: at an action difference of 70 (beyond
LBIG ≈ 69.08) the center-of-mass acceptance probability is the direct
exponential, strictly between 0 and 1 — it is not saturated at 0 or 1,
so the claimed log-space saturation does not happen. -/
theorem c3_saturation_counterexample :
    LBIG < 70 ∧ ¬(comAcceptProbability 70 = 0 ∨ comAcceptProbability 70 = 1) := by
  constructor
  · rw [LBIG]; norm_num
  · rw [comAcceptProbability]
    push_neg
    constructor
    · exact ne_of_gt (Real.exp_pos _)
    · have h : Real.exp (-(70 : ℝ)) < 1 := by
        have := Real.exp_lt_exp.mpr (show (-(70 : ℝ)) < 0 by norm_num)
        rwa [Real.exp_zero] at this
      exact ne_of_lt h

/-- C3 (amended): the move engine evaluates `exp` directly with no
log-space branch — LBIG is defined in common.h but unused by move.cpp.
For an action difference beyond LBIG the acceptance probability (in the
real-number model) is the exponential itself, strictly between 0 and 1
(hence finite and not NaN), and the per-slice probability is clamped to
at most 1 only by the explicit `min`. -/
theorem c3_no_log_space_saturation (deltaS PNorm : ℝ) (h : LBIG < deltaS) :
    comAcceptProbability deltaS = Real.exp (-deltaS) ∧
    0 < comAcceptProbability deltaS ∧ comAcceptProbability deltaS < 1 ∧
    openSliceProbability deltaS PNorm ≤ 1 := by
  have hd : 0 < deltaS := lt_trans (by rw [LBIG]; norm_num) h
  refine ⟨rfl, Real.exp_pos _, ?_, min_le_right _ _⟩
  rw [comAcceptProbability]
  have := Real.exp_lt_exp.mpr (show -deltaS < 0 by linarith)
  rwa [Real.exp_zero] at this

/-- C3 witness: the amended statement at `deltaS = 70`, `PNorm = 1`. -/
theorem c3_witness :
    LBIG < 70 ∧
      (comAcceptProbability 70 = Real.exp (-70) ∧
       0 < comAcceptProbability 70 ∧ comAcceptProbability 70 < 1 ∧
       openSliceProbability 70 1 ≤ 1) :=
  ⟨by rw [LBIG]; norm_num, c3_no_log_space_saturation 70 1 (by rw [LBIG]; norm_num)⟩

/-- A concrete open-move environment whose proposed worm is too costly. -/
def openEnvCostly : OpenEnv :=
  { Mbar := 8, numTimeSlices := 8, uGap := 0, uSlice := 0, uOffset := 0,
    tooCostly := true, localAction := true, slicePass := fun _ => true,
    finalAccept := true }

/-- A concrete open-move environment that passes the cost guard but whose
first single-slice Metropolis test fails. -/
def openEnvSliceFail : OpenEnv :=
  { Mbar := 8, numTimeSlices := 8, uGap := 0, uSlice := 0, uOffset := 0,
    tooCostly := false, localAction := true, slicePass := fun _ => false,
    finalAccept := true }

/-- C4 counterexample: an open attempt whose proposed worm is too costly
returns false with neither `keepMove` nor `undoMove` called, refuting
"exactly one of keepMove and undoMove is called … including early-exit
paths". -/
theorem c4_early_exit_counterexample :
    openAttemptTrace openEnvCostly = ⟨false, 0, 0⟩ := rfl

/-- C4 (amended): on every invocation at most one of the helpers runs,
and exactly one runs on every invocation that passes the pre-proposal
guard checks; on the early-exit paths (CenterOfMass finding slice 0
empty, the worldline too long or the shift leaving a non-periodic cell;
Open finding the proposed worm too costly) neither helper is called. -/
theorem c4_helper_calls_after_guards :
    (∀ (β : Type) (e : ComEnv) (pos : beadLocator → β)
        (propose undoShift : (beadLocator → β) → (beadLocator → β)),
      (comAttemptFull e pos propose undoShift).1.keepCalls +
        (comAttemptFull e pos propose undoShift).1.undoCalls ≤ 1) ∧
    (∀ e : OpenEnv, (openAttemptTrace e).keepCalls +
        (openAttemptTrace e).undoCalls ≤ 1) ∧
    (∀ (β : Type) (e : ComEnv) (pos : beadLocator → β)
        (propose undoShift : (beadLocator → β) → (beadLocator → β)),
      (comEarlyExit e →
        (comAttemptFull e pos propose undoShift).1.keepCalls +
          (comAttemptFull e pos propose undoShift).1.undoCalls = 0) ∧
      (¬comEarlyExit e →
        (comAttemptFull e pos propose undoShift).1.keepCalls +
          (comAttemptFull e pos propose undoShift).1.undoCalls = 1)) ∧
    (∀ e : OpenEnv,
      (e.tooCostly = true → (openAttemptTrace e).keepCalls +
        (openAttemptTrace e).undoCalls = 0) ∧
      (e.tooCostly = false → (openAttemptTrace e).keepCalls +
        (openAttemptTrace e).undoCalls = 1)) := by
  have hcom : ∀ (β : Type) (e : ComEnv) (pos : beadLocator → β)
      (propose undoShift : (beadLocator → β) → (beadLocator → β)),
      (comEarlyExit e →
        (comAttemptFull e pos propose undoShift).1 = ⟨false, 0, 0⟩) ∧
      (¬comEarlyExit e →
        (comAttemptFull e pos propose undoShift).1 = ⟨true, 1, 0⟩ ∨
        (comAttemptFull e pos propose undoShift).1 = ⟨false, 0, 1⟩) := by
    intro β e pos propose undoShift
    rw [comAttemptFull, comEarlyExit]
    constructor
    · intro h
      split_ifs with h1 h2 h3 h4 h5 <;> first | rfl | tauto
    · intro h
      split_ifs with h1 h2 h3 h4 h5 <;> first | (left; rfl) | (right; rfl) | tauto
  have hopen : ∀ e : OpenEnv,
      (e.tooCostly = true → openAttemptTrace e = ⟨false, 0, 0⟩) ∧
      (e.tooCostly = false → openAttemptTrace e = ⟨true, 1, 0⟩ ∨
        openAttemptTrace e = ⟨false, 0, 1⟩) := by
    intro e
    rw [openAttemptTrace]
    constructor
    · intro h
      rw [if_pos h]
    · intro h
      rw [if_neg (by rw [h]; exact Bool.false_ne_true)]
      split_ifs <;> first | (left; rfl) | (right; rfl)
  refine ⟨?_, ?_, ?_, ?_⟩
  · intro β e pos propose undoShift
    by_cases h : comEarlyExit e
    · rw [(hcom β e pos propose undoShift).1 h]; decide
    · rcases (hcom β e pos propose undoShift).2 h with h2 | h2 <;>
        (rw [h2]; decide)
  · intro e
    by_cases h : e.tooCostly
    · rw [(hopen e).1 h]; decide
    · rcases (hopen e).2 (by simpa using h) with h2 | h2 <;>
        (rw [h2]; decide)
  · intro β e pos propose undoShift
    refine ⟨fun h => by rw [(hcom β e pos propose undoShift).1 h]; decide,
      fun h => ?_⟩
    rcases (hcom β e pos propose undoShift).2 h with h2 | h2 <;>
      (rw [h2]; decide)
  · intro e
    refine ⟨fun h => by rw [(hopen e).1 h]; decide, fun h => ?_⟩
    rcases (hopen e).2 h with h2 | h2 <;> (rw [h2]; decide)

/-- C4 witness: on a concrete open attempt that passes the cost guard
with a failing first slice test, exactly one helper (`undoMove`) runs. -/
theorem c4_witness :
    openEnvSliceFail.tooCostly = false ∧
    (openAttemptTrace openEnvSliceFail).keepCalls +
      (openAttemptTrace openEnvSliceFail).undoCalls = 1 :=
  ⟨rfl, (c4_helper_calls_after_guards.2.2.2 openEnvSliceFail).2 rfl⟩

/-- A concrete center-of-mass environment: slice 0 occupied and the
start bead on a worm of length exactly `numTimeSlices`. -/
def comEnvWormM : ComEnv :=
  { numBeadsAtSlice0 := 3, randOffset := 1, onWorm := true, wormLength := 8,
    numTimeSlices := 8, wlLength := 0, boundaryOK := true, accept := true }

/-- A concrete center-of-mass environment with slice 0 empty. -/
def comEnvEmpty : ComEnv :=
  { numBeadsAtSlice0 := 0, randOffset := 1, onWorm := false, wormLength := 0,
    numTimeSlices := 8, wlLength := 8, boundaryOK := true, accept := true }

/-- C5 counterexample: a worm of length exactly `M = numTimeSlices = 8`
IS rejected by the center-of-mass pre-check (the code tests
`worm.length >= numTimeSlices`, line 306), contradicting the claim that
a worm of length exactly M is not rejected. -/
theorem c5_worm_length_M_counterexample :
    comEnvWormM.wormLength = comEnvWormM.numTimeSlices ∧
    (comAttemptFull comEnvWormM (fun _ => (0 : Int)) id id).1 =
      ⟨false, 0, 0⟩ :=
  ⟨rfl, rfl⟩

/-- C5 (amended): `CenterOfMassMove::attemptMove` returns false without
modifying any bead when slice 0 is empty, when the chosen start bead lies
on a worm whose length is at least `numTimeSlices` (so a worm of length
exactly M IS rejected; only worms shorter than M pass this check), or
when the chosen closed worldline is longer than `numTimeSlices`; the
selected start bead always lies on slice 0. -/
theorem c5_com_early_rejections (β : Type) (e : ComEnv)
    (pos : beadLocator → β)
    (propose undoShift : (beadLocator → β) → (beadLocator → β))
    (h : e.numBeadsAtSlice0 = 0 ∨ (e.onWorm ∧ e.numTimeSlices ≤ e.wormLength)
      ∨ (¬e.onWorm ∧ e.numTimeSlices < e.wlLength)) :
    comAttemptFull e pos propose undoShift = (⟨false, 0, 0⟩, pos) ∧
    (comStartBead e).1 = 0 ∧
    (∀ e2 : ComEnv, e2.numBeadsAtSlice0 ≠ 0 → e2.onWorm = true →
      e2.wormLength < e2.numTimeSlices → e2.boundaryOK = true →
      (comAttemptFull e2 pos propose undoShift).1.keepCalls +
        (comAttemptFull e2 pos propose undoShift).1.undoCalls = 1) := by
  refine ⟨?_, rfl, ?_⟩
  · rw [comAttemptFull]
    rcases h with h | h | h
    · rw [if_pos h]
    · rcases Nat.eq_zero_or_pos e.numBeadsAtSlice0 with h0 | h0
      · rw [if_pos h0]
      · rw [if_neg (by omega), if_pos h]
    · rcases Nat.eq_zero_or_pos e.numBeadsAtSlice0 with h0 | h0
      · rw [if_pos h0]
      · rw [if_neg (by omega)]
        by_cases h2 : e.onWorm ∧ e.numTimeSlices ≤ e.wormLength
        · rw [if_pos h2]
        · rw [if_neg h2, if_pos h]
  · intro e2 h1 h2 h3 h4
    rw [comAttemptFull]
    rw [if_neg h1, if_neg (by rw [h2]; omega),
      if_neg (by rw [h2]; simp), if_neg (by rw [h4]; simp)]
    by_cases h5 : e2.accept
    · rw [if_pos h5]
      rfl
    · rw [if_neg h5]
      rfl

/-- C5 witness: the amended statement on the concrete empty-slice-0
environment. -/
theorem c5_witness :
    comAttemptFull comEnvEmpty (fun _ => (0 : Int)) id id =
      (⟨false, 0, 0⟩, fun _ => (0 : Int)) ∧
    (comStartBead comEnvEmpty).1 = 0 ∧
    (∀ e2 : ComEnv, e2.numBeadsAtSlice0 ≠ 0 → e2.onWorm = true →
      e2.wormLength < e2.numTimeSlices → e2.boundaryOK = true →
      (comAttemptFull e2 (fun _ => (0 : Int)) id id).1.keepCalls +
        (comAttemptFull e2 (fun _ => (0 : Int)) id id).1.undoCalls = 1) :=
  c5_com_early_rejections Int comEnvEmpty (fun _ => (0 : Int)) id id
    (Or.inl rfl)

/-- C6: the open move's proposed gap length is even and ranges over
exactly the even values `2, 4, …, Mbar` (in bijection with the uniform
`randInt(Mbar/2-1)` draw, hence uniformly distributed); the head slice is
even and ranges over exactly `0, 2, …, M-2` (in bijection with the
uniform `randInt(M/2-1)` draw); and the tail bead is the head advanced
`gapLength` times along `next`. -/
theorem c6_open_proposal_distribution (e : OpenEnv)
    (nxt : beadLocator → beadLocator)
    (hMbar : 2 ≤ e.Mbar) (hM : 2 ≤ e.numTimeSlices)
    (hGap : e.uGap ≤ e.Mbar / 2 - 1)
    (hSlice : e.uSlice ≤ e.numTimeSlices / 2 - 1) :
    (openGapLength e % 2 = 0 ∧ 2 ≤ openGapLength e ∧
      openGapLength e ≤ e.Mbar) ∧
    (openHeadSliceOf e.uSlice % 2 = 0 ∧
      openHeadSliceOf e.uSlice ≤ e.numTimeSlices - 2) ∧
    openTailBead nxt e = nxt^[openGapLength e] (openHeadBead e) ∧
    (∀ u1 u2 : ℕ, openGapLengthOf u1 = openGapLengthOf u2 → u1 = u2) ∧
    (∀ g : ℕ, (g % 2 = 0 ∧ 2 ≤ g ∧ g ≤ e.Mbar) ↔
      ∃ u, u ≤ e.Mbar / 2 - 1 ∧ openGapLengthOf u = g) ∧
    (∀ s : ℕ, (s % 2 = 0 ∧ s ≤ e.numTimeSlices - 2) ↔
      ∃ u, u ≤ e.numTimeSlices / 2 - 1 ∧ openHeadSliceOf u = s) := by
  have hgap : openGapLength e = 2 * (1 + e.uGap) := rfl
  refine ⟨⟨?_, ?_, ?_⟩, ⟨?_, ?_⟩, rfl, ?_, ?_, ?_⟩
  · rw [hgap]; omega
  · rw [hgap]; omega
  · rw [hgap]; omega
  · rw [openHeadSliceOf]; omega
  · rw [openHeadSliceOf]; omega
  · intro u1 u2 h
    rw [openGapLengthOf, openGapLengthOf] at h
    omega
  · intro g
    constructor
    · rintro ⟨h1, h2, h3⟩
      exact ⟨g / 2 - 1, by omega, by rw [openGapLengthOf]; omega⟩
    · rintro ⟨u, hu, rfl⟩
      rw [openGapLengthOf]
      omega
  · intro s
    constructor
    · rintro ⟨h1, h2⟩
      exact ⟨s / 2, by omega, by rw [openHeadSliceOf]; omega⟩
    · rintro ⟨u, hu, rfl⟩
      rw [openHeadSliceOf]
      omega

/-- A concrete well-formed open-move environment for the distribution
facts. -/
def openEnvDistrib : OpenEnv :=
  { Mbar := 8, numTimeSlices := 8, uGap := 1, uSlice := 2, uOffset := 0,
    tooCostly := false, localAction := true, slicePass := fun _ => true,
    finalAccept := true }

/-- C6 witness: the distribution facts at a concrete environment
(Mbar = M = 8, gap draw 1, slice draw 2). -/
theorem c6_witness :
    (2 ≤ openEnvDistrib.Mbar ∧ 2 ≤ openEnvDistrib.numTimeSlices ∧
      openEnvDistrib.uGap ≤ openEnvDistrib.Mbar / 2 - 1 ∧
      openEnvDistrib.uSlice ≤ openEnvDistrib.numTimeSlices / 2 - 1) ∧
    ((openGapLength openEnvDistrib % 2 = 0 ∧
        2 ≤ openGapLength openEnvDistrib ∧
        openGapLength openEnvDistrib ≤ openEnvDistrib.Mbar) ∧
      (openHeadSliceOf openEnvDistrib.uSlice % 2 = 0 ∧
        openHeadSliceOf openEnvDistrib.uSlice ≤
          openEnvDistrib.numTimeSlices - 2) ∧
      openTailBead (fun p => (p.1 + 1, p.2)) openEnvDistrib =
        (fun p : beadLocator => (p.1 + 1, p.2))^[openGapLength openEnvDistrib]
          (openHeadBead openEnvDistrib) ∧
      (∀ u1 u2 : ℕ, openGapLengthOf u1 = openGapLengthOf u2 → u1 = u2) ∧
      (∀ g : ℕ, (g % 2 = 0 ∧ 2 ≤ g ∧ g ≤ openEnvDistrib.Mbar) ↔
        ∃ u, u ≤ openEnvDistrib.Mbar / 2 - 1 ∧ openGapLengthOf u = g) ∧
      (∀ s : ℕ, (s % 2 = 0 ∧ s ≤ openEnvDistrib.numTimeSlices - 2) ↔
        ∃ u, u ≤ openEnvDistrib.numTimeSlices / 2 - 1 ∧
          openHeadSliceOf u = s)) :=
  ⟨⟨by decide, by decide, by decide, by decide⟩,
    c6_open_proposal_distribution openEnvDistrib (fun p => (p.1 + 1, p.2))
      (by decide) (by decide) (by decide) (by decide)⟩

/-- C7: `newStagingPosition` equals the specification's formula — a
Gaussian deviate of mean 0 and stddev `sqrt(2λτ(L-k-1)/(L-k))` added
coordinate-wise to the midpoint `p_n + (p_e - p_n)/(L-k)` with the
separation minimum-imaged, the result wrapped into the cell. -/
theorem c7_staging_position_matches_spec (D : ℕ) (lambda tau : ℝ)
    (putInBC putInside : (Fin D → ℝ) → (Fin D → ℝ))
    (neighborPos endPos : Fin D → ℝ) (stageLength k : ℤ) (xi : Fin D → ℝ)
    (hlam : 0 ≤ lambda) (htau : 0 ≤ tau) (_hk : k < stageLength) :
    newStagingPosition D lambda tau putInBC putInside neighborPos endPos
        stageLength k xi =
      specStagingPosition D lambda tau putInBC putInside neighborPos endPos
        stageLength k xi := by
  have hlt : (0 : ℝ) ≤ lambda * tau := mul_nonneg hlam htau
  have hsigma : sqrt2LambdaTau lambda tau *
      Real.sqrt (1 * ((stageLength : ℝ) - (k : ℝ) - 1) *
        (1 / (1 * ((stageLength : ℝ) - (k : ℝ))))) =
      Real.sqrt (2 * lambda * tau *
        (((stageLength : ℝ) - (k : ℝ) - 1) / ((stageLength : ℝ) - (k : ℝ)))) := by
    rw [sqrt2LambdaTau, sqrtLambdaTau, one_mul, one_mul, mul_one_div]
    rw [show (2 : ℝ) * lambda * tau *
        (((stageLength : ℝ) - (k : ℝ) - 1) / ((stageLength : ℝ) - (k : ℝ))) =
      2 * (lambda * tau) *
        (((stageLength : ℝ) - (k : ℝ) - 1) / ((stageLength : ℝ) - (k : ℝ)))
      from by ring]
    rw [Real.sqrt_mul (by linarith : (0 : ℝ) ≤ 2 * (lambda * tau))
        (((stageLength : ℝ) - (k : ℝ) - 1) / ((stageLength : ℝ) - (k : ℝ))),
      Real.sqrt_mul (by norm_num : (0 : ℝ) ≤ 2) (lambda * tau)]
  simp only [newStagingPosition, specStagingPosition]
  refine congrArg putInside ?_
  funext i
  simp only [randNorm]
  rw [hsigma]
  ring

/-- C7 witness: the staging position identity at a concrete instance
(D = 1, λ = τ = 1, identity wraps, L = 2, k = 0). -/
theorem c7_witness :
    (0 : ℝ) ≤ 1 ∧ (0 : ℤ) < 2 ∧
    newStagingPosition 1 1 1 id id (fun _ => 0) (fun _ => 0) 2 0
        (fun _ => 0) =
      specStagingPosition 1 1 1 id id (fun _ => 0) (fun _ => 0) 2 0
        (fun _ => 0) :=
  ⟨by norm_num, by decide,
    c7_staging_position_matches_spec 1 1 1 id id (fun _ => 0) (fun _ => 0)
      2 0 (fun _ => 0) (by norm_num) (by norm_num) (by decide)⟩

/-- C8: `RemoveMove::attemptMove` returns false with the state unchanged
whenever the worm is longer than Mbar, shorter than 1, or fewer than one
true particle remains; and on every rejection (the guard, a failing
single-slice test, or the final Metropolis test) the state is unchanged,
because `undoMove` touches no worldline data. -/
theorem c8_remove_reject_unchanged (σ : Type) (deleteWorm : σ → σ)
    (e : RemoveEnv) (s : RemoveState σ)
    (hdiag : s.isConfigDiagonal = false) :
    ((e.Mbar < s.wormLength ∨ s.wormLength < 1 ∨ e.trueNumParticles < 1) →
      removeAttemptMove deleteWorm e s = (false, s)) ∧
    ((removeAttemptMove deleteWorm e s).1 = false →
      (removeAttemptMove deleteWorm e s).2 = s) := by
  obtain ⟨pd, wl, dg⟩ := s
  simp only at hdiag
  subst hdiag
  constructor
  · intro h
    rw [removeAttemptMove, if_pos h]
  · intro hfalse
    rw [removeAttemptMove] at hfalse ⊢
    by_cases h1 : e.Mbar < wl ∨ wl < 1 ∨ e.trueNumParticles < 1
    · rw [if_pos h1]
    · rw [if_neg h1] at hfalse ⊢
      by_cases h2 : e.localAction
      · rw [if_pos h2] at hfalse ⊢
        by_cases h3 : ((List.range (wl - 1).toNat).all e.slicePass : Bool)
        · rw [if_pos h3] at hfalse ⊢
          by_cases h4 : e.finalAccept
          · rw [if_pos h4] at hfalse
            exact Bool.noConfusion hfalse
          · rw [if_neg h4]
            rfl
        · rw [if_neg h3]
          rfl
      · rw [if_neg h2] at hfalse ⊢
        by_cases h4 : e.finalAccept
        · rw [if_pos h4] at hfalse
          exact Bool.noConfusion hfalse
        · rw [if_neg h4]
          rfl

/-- A concrete remove-move environment (Mbar = 8) and a state with a
worm of length 9 in an off-diagonal configuration. -/
def removeEnvLong : RemoveEnv :=
  { Mbar := 8, trueNumParticles := 1, localAction := true,
    slicePass := fun _ => true, finalAccept := true }

/-- The concrete state for the C8 witness. -/
def removeStateLong : RemoveState ℕ :=
  { pathData := 0, wormLength := 9, isConfigDiagonal := false }

/-- C8 witness: a worm of length 9 with Mbar = 8 is rejected with the
state unchanged. -/
theorem c8_witness :
    removeStateLong.isConfigDiagonal = false ∧
    (removeAttemptMove (fun n => n + 1) removeEnvLong removeStateLong =
      (false, removeStateLong)) :=
  ⟨rfl, (c8_remove_reject_unchanged ℕ (fun n => n + 1) removeEnvLong
    removeStateLong rfl).1 (Or.inl (by decide))⟩

/-- A mapped list sum as a sum over the index range. -/
theorem list_sum_map_eq_range {γ : Type} [Inhabited γ] (l : List γ)
    (f : γ → ℝ) :
    (l.map f).sum = ∑ i ∈ Finset.range l.length, f (l.getD i default) := by
  induction l with
  | nil => simp
  | cons a t ih =>
      rw [List.map_cons, List.sum_cons, List.length_cons,
        Finset.sum_range_succ']
      simp only [List.getD_cons_succ, List.getD_cons_zero]
      rw [ih]
      ring

/-- Removing one index from a list removes its term from the mapped
sum. -/
theorem map_eraseIdx_sum {γ : Type} [Inhabited γ] (g : γ → ℝ) :
    ∀ (l : List γ) (p : ℕ), p < l.length →
      ((l.eraseIdx p).map g).sum = (l.map g).sum - g (l.getD p default) := by
  intro l
  induction l with
  | nil => intro p hp; simp at hp
  | cons a t ih =>
      intro p hp
      cases p with
      | zero => simp [List.eraseIdx]
      | succ q =>
          rw [List.eraseIdx, List.map_cons, List.sum_cons, List.map_cons,
            List.sum_cons, ih q (by simpa using hp), List.getD_cons_succ]
          ring

/-- The delete-move energy of cmc.cpp (a loop over all particles that
skips `p2 = p`) equals the spec's pairwise energy against the
configuration with particle `p` removed. -/
theorem deleteOldE_eq_spec {γ : Type} [Inhabited γ] (extV : γ → ℝ)
    (intVsep : γ → γ → ℝ) (l : List γ) (p : ℕ) (hp : p < l.length) :
    deleteOldE extV intVsep l p =
      specParticleEnergy extV intVsep (l.getD p default) (l.eraseIdx p) := by
  rw [deleteOldE, specParticleEnergy]
  congr 1
  rw [map_eraseIdx_sum _ l p hp, list_sum_map_eq_range]
  have hsplit : ∀ p2 : ℕ,
      (if p2 = p then (0 : ℝ)
        else intVsep (l.getD p default) (l.getD p2 default)) =
      intVsep (l.getD p default) (l.getD p2 default) -
        (if p2 = p then intVsep (l.getD p default) (l.getD p2 default)
          else 0) := by
    intro p2
    by_cases hx : p2 = p <;> simp [hx]
  rw [Finset.sum_congr rfl (fun p2 _ => hsplit p2), Finset.sum_sub_distrib,
    Finset.sum_ite_eq' (Finset.range l.length) p
      (fun p2 => intVsep (l.getD p default) (l.getD p2 default)),
    if_pos (Finset.mem_range.mpr hp)]

/-- The insert-move energy of cmc.cpp equals the spec's pairwise energy
against the whole configuration. -/
theorem insertNewE_eq_spec {γ : Type} [Inhabited γ] (extV : γ → ℝ)
    (intVsep : γ → γ → ℝ) (newPos : γ) (l : List γ) :
    insertNewE extV intVsep newPos l =
      specParticleEnergy extV intVsep newPos l := by
  rw [insertNewE, specParticleEnergy, list_sum_map_eq_range]

/-- C9: the classical variant's fugacity is `exp(μ/T)/Λ^D`; insertMove
accepts a uniform-random position exactly when the uniform draw is below
`z·V/(N+1) · exp(-E/T)`, and deleteMove removes the chosen particle
exactly when the draw is below `N/(z·V) · exp(+E/T)`, where `E` is the
spec's full pairwise-plus-external energy of the affected particle. -/
theorem c9_cmc_gce_factors (γ : Type) [Inhabited γ] (D : ℕ) (c : CMCConsts)
    (extV : γ → ℝ) (intVsep : γ → γ → ℝ) (newPos : γ) (p : ℕ) (u : ℝ)
    (st : CMCState γ) (hp : p < st.config.length) :
    fugacity D c = specFugacity D c ∧
    insertMove D c extV intVsep newPos u st =
      (if u < specFugacity D c * c.volume / ((st.config.length : ℝ) + 1) *
          Real.exp (-(specParticleEnergy extV intVsep newPos st.config) / c.T)
       then { config := st.config ++ [newPos],
              energy := st.energy +
                specParticleEnergy extV intVsep newPos st.config }
       else st) ∧
    deleteMove D c extV intVsep p u st =
      (if u < (st.config.length : ℝ) / (specFugacity D c * c.volume) *
          Real.exp (specParticleEnergy extV intVsep
            (st.config.getD p default) (st.config.eraseIdx p) / c.T)
       then { config :=
                (st.config.set p (st.config.getLast?.getD default)).dropLast,
              energy := st.energy - specParticleEnergy extV intVsep
                (st.config.getD p default) (st.config.eraseIdx p) }
       else st) := by
  have h1 : fugacity D c = specFugacity D c := rfl
  have h2 := insertNewE_eq_spec extV intVsep newPos st.config
  have h3 := deleteOldE_eq_spec extV intVsep st.config p hp
  refine ⟨h1, ?_, ?_⟩
  · simp only [insertMove]
    rw [h2, h1]
  · simp only [deleteMove]
    rw [h3, h1]

/-- C9 witness: the acceptance-factor characterization at a concrete
one-particle configuration with zero potentials. -/
theorem c9_witness :
    (0 < [()].length) ∧
    (fugacity 1 ⟨0, 1, 1, 1⟩ = specFugacity 1 ⟨0, 1, 1, 1⟩ ∧
      insertMove 1 ⟨0, 1, 1, 1⟩ (fun _ => 0) (fun _ _ => 0) () 0
          ⟨[()], 0⟩ =
        (if (0 : ℝ) < specFugacity 1 ⟨0, 1, 1, 1⟩ * (1 : ℝ) /
            (((([()] : List Unit)).length : ℝ) + 1) *
            Real.exp (-(specParticleEnergy (fun _ => (0 : ℝ))
              (fun _ _ => (0 : ℝ)) () [()]) / 1)
         then { config := [()] ++ [()], energy := 0 +
                specParticleEnergy (fun _ => (0 : ℝ))
                  (fun _ _ => (0 : ℝ)) () [()] }
         else ⟨[()], 0⟩) ∧
      deleteMove 1 ⟨0, 1, 1, 1⟩ (fun _ => 0) (fun _ _ => 0) 0 0
          ⟨[()], 0⟩ =
        (if (0 : ℝ) < ((([()] : List Unit)).length : ℝ) /
            (specFugacity 1 ⟨0, 1, 1, 1⟩ * 1) *
            Real.exp (specParticleEnergy (fun _ => (0 : ℝ))
              (fun _ _ => (0 : ℝ)) (([()] : List Unit).getD 0 default)
              (([()] : List Unit).eraseIdx 0) / 1)
         then { config := (([()] : List Unit).set 0
                  (([()] : List Unit).getLast?.getD default)).dropLast,
                energy := 0 - specParticleEnergy (fun _ => (0 : ℝ))
                  (fun _ _ => (0 : ℝ)) (([()] : List Unit).getD 0 default)
                  (([()] : List Unit).eraseIdx 0) }
         else ⟨[()], 0⟩)) :=
  ⟨by decide,
    c9_cmc_gce_factors Unit 1 ⟨0, 1, 1, 1⟩ (fun _ => 0) (fun _ _ => 0) ()
      0 0 ⟨[()], 0⟩ (by decide)⟩

/-- C10: `updateMove` and `deleteMove` have no zero-particle guard: with
zero particles the argument handed to `randInt` is `-1`, converted to
`2^32 - 1 = 4294967295` by the `int → uint32` conversion, and the
`config(p)` read is out of the live range for every drawn index; with at
least one particle and an in-range draw both operations are
well-defined. -/
theorem c10_zero_particle_guard_missing (γ : Type) [Inhabited γ] (D : ℕ)
    (c : CMCConsts) (extV : γ → ℝ) (intVsep : γ → γ → ℝ)
    (randUpd : γ → γ) (o : ℕ) (u : ℝ) (st : CMCState γ) :
    randIntArg ((0 : Int) - 1) = 4294967295 ∧
    (st.config = [] →
      updateMoveChecked c extV intVsep randUpd o u st = none ∧
      deleteMoveChecked D c extV intVsep o u st = none) ∧
    (o < st.config.length →
      (updateMoveChecked c extV intVsep randUpd o u st).isSome = true ∧
      (deleteMoveChecked D c extV intVsep o u st).isSome = true) := by
  refine ⟨by rw [randIntArg]; decide, ?_, ?_⟩
  · intro h
    rw [updateMoveChecked, deleteMoveChecked, h]
    exact ⟨by simp, by simp⟩
  · intro ho
    have hx : st.config.get? o = some (st.config.get ⟨o, ho⟩) :=
      List.get?_eq_get ho
    simp only [updateMoveChecked, deleteMoveChecked, hx]
    constructor
    · split_ifs <;> rfl
    · rfl

/-- C1: for the cited move families (staging, bisection, swap-head),
whenever the final Metropolis test or an intermediate bisection-level
test rejects, the undo path restores the configuration exactly: every
edited bead position returns to its pre-proposal value, and (for the
swap-head move) the next/prev links, the worm fields — head, tail,
length, gap, special markers, diagonality flag — and the shift level all
equal their values before the attempt started editing. -/
theorem c1_rejected_moves_restore :
    (∀ (β : Type) (nxt : beadLocator → beadLocator)
        (startBead : beadLocator) (Mbar : ℕ) (pos : beadLocator → β)
        (vals : List β),
      (stagingChain nxt startBead Mbar).Nodup →
      stagingUndo
          (stagingProposal pos (stagingChain nxt startBead Mbar) vals).1
          (stagingChain nxt startBead Mbar)
          (stagingProposal pos (stagingChain nxt startBead Mbar) vals).2 =
        pos) ∧
    (∀ (β : Type) (bead : ℕ → beadLocator) (prop : ℕ → ℕ → β)
        (accepts : ℕ → Bool) (b : ℕ) (pos0 : beadLocator → β)
        (o0 np0 : ℕ → β),
      (∀ i j, i < 2 ^ b - 1 → j < 2 ^ b - 1 → bead i = bead j → i = j) →
      (bisectionRun bead prop accepts b b
          ⟨pos0, fun _ => true, o0, np0⟩).2 = false →
      bisectionUndoPos bead (2 ^ b - 1)
          (bisectionRun bead prop accepts b b
            ⟨pos0, fun _ => true, o0, np0⟩).1 = pos0) ∧
    (∀ (β : Type) (s0 : SwapHeadState β) (swap pivot : beadLocator)
        (m : ℕ) (vals : List β),
      s0.nextL^[m + 1] swap = pivot →
      (s0.head :: swap :: pivot :: chainFrom s0.nextL swap m).Nodup →
      s0.nextL s0.head = XXX →
      s0.prevL (s0.nextL swap) = swap →
      s0.special1 = XXX → s0.special2 = XXX →
      s0.isConfigDiagonal = false →
      swapHeadAttemptReject s0 swap pivot m vals = s0) := by
  refine ⟨?_, ?_, ?_⟩
  · intro β nxt startBead Mbar pos vals hnd
    exact stagingProposal_undo _ pos vals hnd
  · intro β bead prop accepts b pos0 o0 np0 hinj _hrej
    have hInv : BisInv bead (2 ^ b - 1) pos0
        (bisectionRun bead prop accepts b b
          ⟨pos0, fun _ => true, o0, np0⟩).1 :=
      bisectionRun_inv bead (2 ^ b - 1) pos0 prop accepts b rfl hinj b
        (le_refl b) ⟨pos0, fun _ => true, o0, np0⟩
        ⟨fun n _ h => absurd h (by simp), fun a _ => rfl⟩
    exact bisectionUndoPos_restores bead (2 ^ b - 1) pos0 _ hinj hInv
  · intro β s0 swap pivot m vals h1 h2 h3 h4 h5 h6 h7
    exact swapHeadAttemptReject_restores s0 swap pivot m vals
      h1 h2 h3 h4 h5 h6 h7

/-- Concrete next-link function for the C1 witness: a straight chain
with the worm head at slice 5 terminated by `XXX`. -/
def swapNextC : beadLocator → beadLocator :=
  fun p => if p = ((5 : Int), (0 : Int)) then XXX else (p.1 + 1, p.2)

/-- Concrete prev-link function for the C1 witness. -/
def swapPrevC : beadLocator → beadLocator := fun p => (p.1 - 1, p.2)

/-- Concrete off-diagonal state for the C1 witness: head `(5,0)`, a
swap chain `(0,0) → (1,0) → (2,0) → (3,0)` toward the pivot. -/
def swapStateC : SwapHeadState Int :=
  { pos := fun _ => 0, nextL := swapNextC, prevL := swapPrevC,
    head := (5, 0), tail := (9, 9), special1 := XXX, special2 := XXX,
    wormLength := 3, wormGap := 1, isConfigDiagonal := false, shift := 1 }

/-- Interior-bead numbering for the C1 bisection witness. -/
def bisBeadC : ℕ → beadLocator := fun n => ((n : Int), 0)

/-- Initial bisection state for the C1 witness. -/
def bisStateC : BisectionState Int :=
  { pos := fun _ => 0, includeBit := fun _ => true,
    originalPos := fun _ => 0, newPos := fun _ => 0 }

/-- C1 witness: the three restoration statements at concrete
configurations — a 4-slice staging chain, a two-level bisection whose
first Metropolis test rejects, and a swap-head attempt on the concrete
off-diagonal state. -/
theorem c1_witness :
    (stagingChain (fun p : beadLocator => (p.1 + 1, p.2)) (0, 0) 4).Nodup ∧
    stagingUndo
        (stagingProposal (fun _ => (0 : Int))
          (stagingChain (fun p : beadLocator => (p.1 + 1, p.2)) (0, 0) 4)
          [5, 6, 7]).1
        (stagingChain (fun p : beadLocator => (p.1 + 1, p.2)) (0, 0) 4)
        (stagingProposal (fun _ => (0 : Int))
          (stagingChain (fun p : beadLocator => (p.1 + 1, p.2)) (0, 0) 4)
          [5, 6, 7]).2 = (fun _ => (0 : Int)) ∧
    (bisectionRun bisBeadC (fun _ _ => (7 : Int)) (fun _ => false) 2 2
        bisStateC).2 = false ∧
    bisectionUndoPos bisBeadC (2 ^ 2 - 1)
        (bisectionRun bisBeadC (fun _ _ => (7 : Int)) (fun _ => false) 2 2
          bisStateC).1 = (fun _ => (0 : Int)) ∧
    swapNextC^[2 + 1] (0, 0) = (3, 0) ∧
    swapHeadAttemptReject swapStateC (0, 0) (3, 0) 2 [4, 5] = swapStateC := by
  refine ⟨by decide, ?_, by decide, ?_, by decide, ?_⟩
  · exact c1_rejected_moves_restore.1 Int (fun p => (p.1 + 1, p.2)) (0, 0) 4
      (fun _ => (0 : Int)) [5, 6, 7] (by decide)
  · exact c1_rejected_moves_restore.2.1 Int bisBeadC (fun _ _ => (7 : Int))
      (fun _ => false) 2 (fun _ => (0 : Int)) (fun _ => 0) (fun _ => 0)
      (fun i j _ _ h => by
        have h2 := congrArg Prod.fst h
        simp only [bisBeadC] at h2
        exact_mod_cast h2) (by decide)
  · exact c1_rejected_moves_restore.2.2 Int swapStateC (0, 0) (3, 0) 2 [4, 5]
      (by decide) (by decide) (by decide) (by decide) rfl rfl rfl

end Pimc
